import Mathlib

/-!
Verification of the wave-tray toolpath generator.

Shallow embedding of `user/scripts/sigmoid.py` and
`user/scripts/wave_tray_ys4i.py` over the real numbers, together with
proofs of the specification's claims about them.

Modelling conventions:
* Python/NumPy floats are modelled as real numbers (`ℝ`); NumPy arrays as
  `List ℝ`, with elementwise broadcasting rendered as `List.map` /
  `List.zipWith` over equal-length lists.
* `np.linspace`, `np.arange` and `np.full_like` are modelled by `linspace`,
  `arange` and a constant `List.map` following their documented semantics.
* The external `gcoordinator` library (out of scope per the spec, §6) is
  modelled structurally: `gc.Path` is a record of three coordinate lists,
  `gc.PathList` a record of paths plus the two mutable tag booleans, and the
  external `gc.Transform.offset` collaborator is recorded symbolically as the
  `TrayPath.offsetOf` constructor holding its two arguments.
* Python `int` fields are `ℤ` where negative values are observable
  (`layer_count`, `hole_layer_limit`); the NumPy sample counts are `ℕ`
  (NumPy rejects negative sample counts, so only naturals reach `linspace`).
-/

namespace WaveTray

/-- Model of `np.linspace a b n`: `n` points from `a` to `b` inclusive; a single
point `a` when `n = 1`, empty when `n = 0`. -/
noncomputable def linspace (a b : ℝ) (n : ℕ) : List ℝ :=
  (List.range n).map fun i : ℕ =>
    if n ≤ 1 then a else a + (b - a) * (i : ℝ) / ((n : ℝ) - 1)

/-- Model of `np.arange start stop step` for positive `step`: the values
`start + k·step` with `k < ⌈(stop − start)/step⌉`, i.e. exactly those below
`stop`. -/
noncomputable def arange (start stop step : ℝ) : List ℝ :=
  (List.range ⌈(stop - start) / step⌉₊).map fun k : ℕ => start + (k : ℝ) * step

/-- Model of `np.ndarray.min` on a nonempty array (NumPy raises on an empty one;
the `[]` case is junk and never reached by the claims). -/
noncomputable def arrayMin : List ℝ → ℝ
  | [] => 0
  | x :: xs => xs.foldl min x

/-- From `sigmoid.py` and `wave_tray_ys4i.py`: `sigmoid(x) = 1.0 / (1.0 + np.exp(-x))`. -/
noncomputable def sigmoid (x : ℝ) : ℝ := 1 / (1 + Real.exp (-x))

/-- Model of `gc.Path(xs, ys, zs)`: an ordered 3-D point sequence. -/
structure Path where
  xs : List ℝ
  ys : List ℝ
  zs : List ℝ

/-- Model of `gc.PathList(paths)` with its two mutable tag booleans; the external
constructor's tag defaults are unspecified, modelled as `true` so that the
explicit assignments in `build_wave_tray` are observable. -/
structure PathList where
  paths : List Path
  z_hop : Bool
  retraction : Bool

/-- One element of the builder's output list: a plain `gc.Path`, the result
of the external `gc.Transform.offset(path, d)` collaborator (kept symbolic,
spec §6), or a tagged `gc.PathList` group. -/
inductive TrayPath where
  | single : Path → TrayPath
  | offsetOf : Path → ℝ → TrayPath
  | group : PathList → TrayPath

/-- The frozen `WaveTrayParams` dataclass, with its default values. -/
structure WaveTrayParams where
  layer_count : ℤ := 120
  layer_height_mm : ℝ := 1.0
  base_radius_mm : ℝ := 20
  radial_growth_mm : ℝ := 5
  wave_amplitude_mm : ℝ := 2.0
  wave_frequency : ℝ := 100.5
  wave_sample_count : ℕ := 403
  hole_sample_count : ℕ := 200
  hole_radius_mm : ℝ := 15.3
  hole_layer_limit : ℤ := 2
  hole_offset_mm : ℝ := 0.4
  infill_distance_mm : ℝ := 0.5
  infill_angle_offset_rad : ℝ := Real.pi / 4
  infill_angle_step_rad : ℝ := Real.pi / 2
  concentric_pitch_mm : ℝ := 1.0
  concentric_clearance_mm : ℝ := 0.2

/-- Model of `WaveTrayParams()`: the dataclass with every field at its default. -/
noncomputable def default_params : WaveTrayParams := {}

/-- From the source, `build_concentric_fill`: fill the annulus between `inner_radius` and
`outer_radius` with concentric circular paths at constant height. -/
noncomputable def build_concentric_fill (params : WaveTrayParams)
    (inner_radius outer_radius z_height : ℝ) : Option PathList :=
  if outer_radius - inner_radius ≤ params.concentric_pitch_mm then none
  else
    let angles := linspace 0 (2 * Real.pi) params.hole_sample_count
    let z_coords := angles.map fun _ => z_height
    let radii := arange inner_radius outer_radius params.concentric_pitch_mm
    let paths := radii.map fun radius =>
      Path.mk (angles.map fun θ => radius * Real.cos θ)
        (angles.map fun θ => radius * Real.sin θ) z_coords
    if paths.isEmpty then none else some (PathList.mk paths true true)

/-- From the source, `wave_angles = np.linspace(0, 2π, wave_sample_count)`, computed once
before the layer loop. -/
noncomputable def wave_angles (params : WaveTrayParams) : List ℝ :=
  linspace 0 (2 * Real.pi) params.wave_sample_count

/-- From the source, `hole_angles = np.linspace(0, 2π, hole_sample_count)`, computed once
before the layer loop. -/
noncomputable def hole_angles (params : WaveTrayParams) : List ℝ :=
  linspace 0 (2 * Real.pi) params.hole_sample_count

/-- From the source, `total_height_mm = params.layer_count * params.layer_height_mm`. -/
noncomputable def total_height_mm (params : WaveTrayParams) : ℝ :=
  (params.layer_count : ℝ) * params.layer_height_mm

/-- From the source, `layer_z = np.linspace(layer_bottom, layer_top, wave_sample_count)` with
`layer_bottom = layer_index · layer_height` and `layer_top = (layer_index + 1) ·
layer_height`. -/
noncomputable def layer_z (params : WaveTrayParams) (layer_index : ℕ) : List ℝ :=
  linspace ((layer_index : ℝ) * params.layer_height_mm)
    (((layer_index : ℝ) + 1) * params.layer_height_mm) params.wave_sample_count

/-- From the source, `normalized_height = layer_z / total_height_mm` (elementwise). -/
noncomputable def normalized_height (params : WaveTrayParams) (layer_index : ℕ) : List ℝ :=
  (layer_z params layer_index).map fun z => z / total_height_mm params

/-- The Radial Profile Evaluator applied to one normalized height: the
scalar computation of the line
`base_radius = params.base_radius_mm + params.radial_growth_mm * sigmoid(6*(normalized_height - 0.5))`. -/
noncomputable def profile_radius (params : WaveTrayParams) (h : ℝ) : ℝ :=
  params.base_radius_mm + params.radial_growth_mm * sigmoid (6 * (h - 0.5))

/-- From the source, `base_radius`: the profile evaluated elementwise on the normalized
heights of one layer. -/
noncomputable def base_radius (params : WaveTrayParams) (layer_index : ℕ) : List ℝ :=
  (normalized_height params layer_index).map (profile_radius params)

/-- From the source, `wave_radius = base_radius + wave_amplitude_mm * np.sin(wave_angles *
wave_frequency + np.pi * layer_index)` (elementwise over equal-length
arrays). -/
noncomputable def wave_radius (params : WaveTrayParams) (layer_index : ℕ) : List ℝ :=
  List.zipWith
    (fun b θ => b + params.wave_amplitude_mm *
      Real.sin (θ * params.wave_frequency + Real.pi * (layer_index : ℝ)))
    (base_radius params layer_index) (wave_angles params)

/-- From the source, `wave_wall = gc.Path(wave_radius * cos(wave_angles), wave_radius *
sin(wave_angles), layer_z)`. -/
noncomputable def wave_wall (params : WaveTrayParams) (layer_index : ℕ) : Path :=
  Path.mk
    (List.zipWith (fun r θ => r * Real.cos θ) (wave_radius params layer_index)
      (wave_angles params))
    (List.zipWith (fun r θ => r * Real.sin θ) (wave_radius params layer_index)
      (wave_angles params))
    (layer_z params layer_index)

/-- From the source, `hole_z = np.full_like(hole_angles, layer_height_mm * (layer_index + 1))`. -/
noncomputable def hole_z (params : WaveTrayParams) (layer_index : ℕ) : List ℝ :=
  (hole_angles params).map fun _ => params.layer_height_mm * ((layer_index : ℝ) + 1)

/-- From the source, `hole_path = gc.Path(hole_radius * cos(hole_angles), hole_radius *
sin(hole_angles), hole_z)`. -/
noncomputable def hole_path (params : WaveTrayParams) (layer_index : ℕ) : Path :=
  Path.mk
    ((hole_angles params).map fun θ => params.hole_radius_mm * Real.cos θ)
    ((hole_angles params).map fun θ => params.hole_radius_mm * Real.sin θ)
    (hole_z params layer_index)

/-- The body of the `for layer_index in range(params.layer_count)` loop of
`build_wave_tray`: the sub-list of `tray_paths` appended during one
iteration, in append order (outer wall, then conditionally the hole wall,
its inner offset, and the concentric fill when present). -/
noncomputable def layerPaths (params : WaveTrayParams) (layer_index : ℕ) : List TrayPath :=
  if (layer_index : ℤ) < params.hole_layer_limit then
    let hp := hole_path params layer_index
    let inner_radius := params.hole_radius_mm + params.concentric_clearance_mm
    let outer_radius := arrayMin (wave_radius params layer_index) -
      params.concentric_clearance_mm
    match build_concentric_fill params inner_radius outer_radius
      (params.layer_height_mm * ((layer_index : ℝ) + 1)) with
    | none =>
        [TrayPath.single (wave_wall params layer_index), TrayPath.single hp,
         TrayPath.offsetOf hp (-params.hole_offset_mm)]
    | some concentric =>
        [TrayPath.single (wave_wall params layer_index), TrayPath.single hp,
         TrayPath.offsetOf hp (-params.hole_offset_mm),
         TrayPath.group (PathList.mk concentric.paths false false)]
  else
    [TrayPath.single (wave_wall params layer_index)]

/-- From the source, `build_wave_tray`: the loop over `range(params.layer_count)` appending
each layer's artifacts to `tray_paths` in order (a Python `range` over a
non-positive bound is empty, hence `Int.toNat`). -/
noncomputable def build_wave_tray (params : WaveTrayParams) : List TrayPath :=
  (List.range params.layer_count.toNat).flatMap (layerPaths params)

/-! ## General lemmas about the NumPy models -/

theorem linspace_length (a b : ℝ) (n : ℕ) : (linspace a b n).length = n := by
  unfold linspace
  rw [List.length_map, List.length_range]

theorem arange_length (start stop step : ℝ) :
    (arange start stop step).length = ⌈(stop - start) / step⌉₊ := by
  unfold arange
  rw [List.length_map, List.length_range]

theorem mem_linspace_bounds {a b x : ℝ} {n : ℕ} (hab : a ≤ b)
    (hx : x ∈ linspace a b n) : a ≤ x ∧ x ≤ b := by
  unfold linspace at hx
  rw [List.mem_map] at hx
  obtain ⟨k, hk, rfl⟩ := hx
  rw [List.mem_range] at hk
  by_cases h1 : n ≤ 1
  · rw [if_pos h1]
    exact ⟨le_refl a, hab⟩
  · have hn2 : (2 : ℝ) ≤ (n : ℝ) := by
      have : 2 ≤ n := by omega
      exact_mod_cast this
    have hn1 : (0 : ℝ) < (n : ℝ) - 1 := by linarith
    have hk1 : (k : ℝ) + 1 ≤ (n : ℝ) := by exact_mod_cast hk
    have hfrac0 : 0 ≤ (k : ℝ) / ((n : ℝ) - 1) := div_nonneg (Nat.cast_nonneg k) hn1.le
    have hfrac1 : (k : ℝ) / ((n : ℝ) - 1) ≤ 1 := by
      rw [div_le_one hn1]; linarith
    have hba : 0 ≤ b - a := by linarith
    have key0 : 0 ≤ (b - a) * ((k : ℝ) / ((n : ℝ) - 1)) := mul_nonneg hba hfrac0
    have key1 : (b - a) * ((k : ℝ) / ((n : ℝ) - 1)) ≤ b - a :=
      mul_le_of_le_one_right hba hfrac1
    rw [if_neg h1, mul_div_assoc]
    constructor
    · linarith
    · linarith

/-! ## Lemmas about the sigmoid -/

theorem sigmoid_pos (x : ℝ) : 0 < sigmoid x := by
  unfold sigmoid
  have := Real.exp_pos (-x)
  positivity

theorem sigmoid_lt_one (x : ℝ) : sigmoid x < 1 := by
  unfold sigmoid
  have hx := Real.exp_pos (-x)
  rw [div_lt_one (by linarith)]
  linarith

theorem sigmoid_monotone {x y : ℝ} (hxy : x ≤ y) : sigmoid x ≤ sigmoid y := by
  unfold sigmoid
  have hy : (0 : ℝ) < 1 + Real.exp (-y) := by
    have := Real.exp_pos (-y); linarith
  have hle : 1 + Real.exp (-y) ≤ 1 + Real.exp (-x) :=
    add_le_add_left (Real.exp_le_exp.mpr (by linarith)) 1
  exact one_div_le_one_div_of_le hy hle

theorem arange_two_le {inner outer pitch : ℝ} (hp : 0 < pitch)
    (hw : pitch < outer - inner) : 2 ≤ (arange inner outer pitch).length := by
  rw [arange_length]
  have h1 : (1 : ℕ) < ⌈(outer - inner) / pitch⌉₊ :=
    Nat.lt_ceil.mpr (by rw [Nat.cast_one, one_lt_div hp]; linarith)
  omega

/-- Past its narrow-annulus guard, `build_concentric_fill` returns the list
of rings over the `arange` radius sequence (which is then provably
nonempty). -/
theorem build_concentric_fill_wide (params : WaveTrayParams)
    {inner_radius outer_radius : ℝ} (z_height : ℝ)
    (hp : 0 < params.concentric_pitch_mm)
    (hw : params.concentric_pitch_mm < outer_radius - inner_radius) :
    build_concentric_fill params inner_radius outer_radius z_height =
      some (PathList.mk
        ((arange inner_radius outer_radius params.concentric_pitch_mm).map fun radius =>
          Path.mk
            ((linspace 0 (2 * Real.pi) params.hole_sample_count).map fun θ =>
              radius * Real.cos θ)
            ((linspace 0 (2 * Real.pi) params.hole_sample_count).map fun θ =>
              radius * Real.sin θ)
            ((linspace 0 (2 * Real.pi) params.hole_sample_count).map fun _ => z_height))
        true true) := by
  have hg : ¬ (outer_radius - inner_radius ≤ params.concentric_pitch_mm) := by linarith
  have hlen := arange_two_le hp hw
  have hne : (arange inner_radius outer_radius params.concentric_pitch_mm).map
      (fun radius =>
        Path.mk
          ((linspace 0 (2 * Real.pi) params.hole_sample_count).map fun θ =>
            radius * Real.cos θ)
          ((linspace 0 (2 * Real.pi) params.hole_sample_count).map fun θ =>
            radius * Real.sin θ)
          ((linspace 0 (2 * Real.pi) params.hole_sample_count).map fun _ => z_height)) ≠ [] := by
    intro hnil
    have := congrArg List.length hnil
    rw [List.length_map] at this
    simp only [List.length_nil] at this
    omega
  simp only [build_concentric_fill, if_neg hg, List.isEmpty_eq_false.mpr hne,
    Bool.false_eq_true, if_false]

/-- A one-layer, one-sample parameter set with a flat profile
(`radial_growth_mm = 0`, `wave_amplitude_mm = 0`) whose hole annulus is too
narrow for any concentric ring: `inner = 18 + 1 = 19`,
`outer = 20 − 1 = 19`. -/
noncomputable def narrow_params : WaveTrayParams :=
  { layer_count := 1, layer_height_mm := 1, base_radius_mm := 20,
    radial_growth_mm := 0, wave_amplitude_mm := 0, wave_frequency := 1,
    wave_sample_count := 1, hole_sample_count := 3, hole_radius_mm := 18,
    hole_layer_limit := 1, hole_offset_mm := 0.4, infill_distance_mm := 0.5,
    infill_angle_offset_rad := 0, infill_angle_step_rad := 1,
    concentric_pitch_mm := 1, concentric_clearance_mm := 1 }

/-- Like `narrow_params` but with a wide annulus: `inner = 15 + 1 = 16`,
`outer = 30 − 1 = 29`. -/
noncomputable def wide_params : WaveTrayParams :=
  { narrow_params with base_radius_mm := 30, hole_radius_mm := 15 }

theorem wave_radius_narrow_eval : wave_radius narrow_params 0 = [20] := by
  have hang : wave_angles narrow_params = [0] := by
    rw [wave_angles]
    simp [linspace, narrow_params, List.range_succ]
  have hz : layer_z narrow_params 0 = [0] := by
    rw [layer_z]
    simp [linspace, narrow_params, List.range_succ]
  have hb : base_radius narrow_params 0 = [20] := by
    rw [base_radius, normalized_height, hz]
    simp [profile_radius, narrow_params]
  rw [wave_radius, hb, hang]
  simp [narrow_params]

theorem arrayMin_wave_radius_narrow : arrayMin (wave_radius narrow_params 0) = 20 := by
  rw [wave_radius_narrow_eval]
  simp [arrayMin]

theorem wave_radius_wide_eval : wave_radius wide_params 0 = [30] := by
  have hang : wave_angles wide_params = [0] := by
    rw [wave_angles]
    simp [linspace, wide_params, narrow_params, List.range_succ]
  have hz : layer_z wide_params 0 = [0] := by
    rw [layer_z]
    simp [linspace, wide_params, narrow_params, List.range_succ]
  have hb : base_radius wide_params 0 = [30] := by
    rw [base_radius, normalized_height, hz]
    simp [profile_radius, wide_params, narrow_params]
  rw [wave_radius, hb, hang]
  simp [wide_params, narrow_params]

theorem arrayMin_wave_radius_wide : arrayMin (wave_radius wide_params 0) = 30 := by
  rw [wave_radius_wide_eval]
  simp [arrayMin]

/-! ## Claim theorems -/

/-- C1: for every real height input `h` (and elementwise over any array of
heights, with no restriction to `[0,1]`), the Radial Profile Evaluator
returns `base_radius + radial_growth * σ(6·(h − 0.5))` where
`σ(t) = 1/(1+e^{−t})` is the standard logistic function. -/
theorem profile_evaluator_is_logistic (params : WaveTrayParams) (h : ℝ) (hs : List ℝ) :
    profile_radius params h =
      params.base_radius_mm + params.radial_growth_mm *
        (1 / (1 + Real.exp (-(6 * (h - 0.5))))) ∧
    hs.map (profile_radius params) =
      hs.map (fun t => params.base_radius_mm + params.radial_growth_mm *
        (1 / (1 + Real.exp (-(6 * (t - 0.5)))))) :=
  ⟨rfl, rfl⟩

/-- C6: for `h ∈ [0,1]` and non-negative radial growth, the Radial Profile
Evaluator is monotonically non-decreasing in `h` and bounded within
`[base_radius, base_radius + radial_growth]`. -/
theorem profile_evaluator_monotone_bounded (params : WaveTrayParams) (h1 h2 : ℝ)
    (hg : 0 ≤ params.radial_growth_mm)
    (h1l : 0 ≤ h1) (h1u : h1 ≤ 1) (h2l : 0 ≤ h2) (h2u : h2 ≤ 1) (h12 : h1 ≤ h2) :
    profile_radius params h1 ≤ profile_radius params h2 ∧
    params.base_radius_mm ≤ profile_radius params h1 ∧
    profile_radius params h1 ≤ params.base_radius_mm + params.radial_growth_mm ∧
    params.base_radius_mm ≤ profile_radius params h2 ∧
    profile_radius params h2 ≤ params.base_radius_mm + params.radial_growth_mm := by
  have bound : ∀ t : ℝ, params.base_radius_mm ≤ profile_radius params t ∧
      profile_radius params t ≤ params.base_radius_mm + params.radial_growth_mm := by
    intro t
    unfold profile_radius
    have hp := sigmoid_pos (6 * (t - 0.5))
    have ho := sigmoid_lt_one (6 * (t - 0.5))
    constructor
    · nlinarith
    · nlinarith
  refine ⟨?_, (bound h1).1, (bound h1).2, (bound h2).1, (bound h2).2⟩
  unfold profile_radius
  have hmono : sigmoid (6 * (h1 - 0.5)) ≤ sigmoid (6 * (h2 - 0.5)) :=
    sigmoid_monotone (by linarith)
  nlinarith

/-- Witness for C6 at `h1 = 0`, `h2 = 1` with the default parameters. -/
theorem profile_evaluator_monotone_bounded_witness :
    profile_radius default_params 0 ≤ profile_radius default_params 1 ∧
    default_params.base_radius_mm ≤ profile_radius default_params 0 ∧
    profile_radius default_params 0 ≤
      default_params.base_radius_mm + default_params.radial_growth_mm ∧
    default_params.base_radius_mm ≤ profile_radius default_params 1 ∧
    profile_radius default_params 1 ≤
      default_params.base_radius_mm + default_params.radial_growth_mm :=
  profile_evaluator_monotone_bounded default_params 0 1
    (by norm_num [default_params]) (by norm_num) (by norm_num) (by norm_num)
    (by norm_num) (by norm_num)

/-- C8: the builder is deterministic — identical parameters give identical
output sequences (the embedding is a pure function of the parameters, with
no hidden state). -/
theorem build_wave_tray_deterministic (p q : WaveTrayParams) (hpq : p = q) :
    build_wave_tray p = build_wave_tray q :=
  congrArg build_wave_tray hpq

/-- Witness for C8 at the default parameters. -/
theorem build_wave_tray_deterministic_witness :
    build_wave_tray default_params = build_wave_tray default_params :=
  build_wave_tray_deterministic default_params default_params rfl

/-- C10: with `layer_count ≤ 0` the builder returns the empty output list
(the layer loop runs zero iterations, so the zero normalization divisor is
never consulted), and the embedding is total, so no error is raised. -/
theorem build_wave_tray_nonpos_layer_count (params : WaveTrayParams)
    (hc : params.layer_count ≤ 0) : build_wave_tray params = [] := by
  unfold build_wave_tray
  rw [Int.toNat_of_nonpos hc]
  rfl

/-- Witness for C10 at `layer_count = -3`. -/
theorem build_wave_tray_nonpos_layer_count_witness :
    build_wave_tray { default_params with layer_count := -3 } = [] :=
  build_wave_tray_nonpos_layer_count _ (by decide)

/-- C9: with positive pitch, `build_concentric_fill` returns `none` exactly
when `outer_radius − inner_radius ≤ pitch`; whenever that guard is passed the
`arange` radius sequence holds at least two radii, so the trailing empty-list
fallback is unreachable and the returned group holds at least one ring. -/
theorem build_concentric_fill_none_iff (params : WaveTrayParams)
    (inner_radius outer_radius z_height : ℝ)
    (hp : 0 < params.concentric_pitch_mm) :
    (build_concentric_fill params inner_radius outer_radius z_height = none ↔
      outer_radius - inner_radius ≤ params.concentric_pitch_mm) ∧
    (params.concentric_pitch_mm < outer_radius - inner_radius →
      2 ≤ (arange inner_radius outer_radius params.concentric_pitch_mm).length ∧
      ∃ g : PathList,
        build_concentric_fill params inner_radius outer_radius z_height = some g ∧
        g.paths ≠ []) := by
  by_cases hg : outer_radius - inner_radius ≤ params.concentric_pitch_mm
  · refine ⟨iff_of_true ?_ hg, fun hw => absurd hw (by linarith)⟩
    simp only [build_concentric_fill, if_pos hg]
  · push_neg at hg
    rw [build_concentric_fill_wide params z_height hp hg]
    refine ⟨iff_of_false (by simp) (not_le.mpr hg), fun _ => ⟨arange_two_le hp hg, ?_⟩⟩
    refine ⟨_, rfl, fun hnil => ?_⟩
    have h2 := arange_two_le hp hg
    have := congrArg List.length hnil
    rw [List.length_map] at this
    simp only [List.length_nil] at this
    omega

/-- Witness for C9 at pitch `1`, annulus `[0, 5]`. -/
theorem build_concentric_fill_none_iff_witness :
    (build_concentric_fill default_params 0 5 0 = none ↔
      5 - 0 ≤ default_params.concentric_pitch_mm) ∧
    (default_params.concentric_pitch_mm < 5 - 0 →
      2 ≤ (arange 0 5 default_params.concentric_pitch_mm).length ∧
      ∃ g : PathList,
        build_concentric_fill default_params 0 5 0 = some g ∧ g.paths ≠ []) :=
  build_concentric_fill_none_iff default_params 0 5 0
    (by norm_num [default_params])

/-- C3: for every layer, the hole wall and its inward offset by
`hole_offset_mm` are appended exactly when `layer_index < hole_layer_limit`;
the hole wall is the fixed-radius circle of `hole_sample_count` points at
radius `hole_radius_mm` and constant `Z = layer_height·(layer_index+1)`, and
a layer at or above the limit contributes nothing but its outer wall. -/
theorem hole_paths_iff_below_limit (params : WaveTrayParams) (layer_index : ℕ)
    (hi : layer_index < params.layer_count.toNat) :
    (params.hole_layer_limit ≤ (layer_index : ℤ) →
      layerPaths params layer_index = [TrayPath.single (wave_wall params layer_index)]) ∧
    ((layer_index : ℤ) < params.hole_layer_limit →
      ∃ rest : List TrayPath,
        layerPaths params layer_index =
          TrayPath.single (wave_wall params layer_index) ::
            TrayPath.single (hole_path params layer_index) ::
              TrayPath.offsetOf (hole_path params layer_index)
                (-params.hole_offset_mm) :: rest ∧
        (rest = [] ∨ ∃ g : PathList, rest = [TrayPath.group g]) ∧
        (hole_path params layer_index).xs =
          (hole_angles params).map (fun θ => params.hole_radius_mm * Real.cos θ) ∧
        (hole_path params layer_index).ys =
          (hole_angles params).map (fun θ => params.hole_radius_mm * Real.sin θ) ∧
        (hole_path params layer_index).xs.length = params.hole_sample_count ∧
        (hole_path params layer_index).ys.length = params.hole_sample_count ∧
        (hole_path params layer_index).zs.length = params.hole_sample_count ∧
        ∀ z ∈ (hole_path params layer_index).zs,
          z = params.layer_height_mm * ((layer_index : ℝ) + 1)) := by
  have hlen : (hole_angles params).length = params.hole_sample_count :=
    linspace_length _ _ _
  constructor
  · intro h
    simp only [layerPaths, if_neg (not_lt.mpr h)]
  · intro h
    have hxs : (hole_path params layer_index).xs.length = params.hole_sample_count := by
      simp only [hole_path]
      rw [List.length_map]
      exact hlen
    have hys : (hole_path params layer_index).ys.length = params.hole_sample_count := by
      simp only [hole_path]
      rw [List.length_map]
      exact hlen
    have hzs : (hole_path params layer_index).zs.length = params.hole_sample_count := by
      simp only [hole_path, hole_z]
      rw [List.length_map]
      exact hlen
    have hz : ∀ z ∈ (hole_path params layer_index).zs,
        z = params.layer_height_mm * ((layer_index : ℝ) + 1) := by
      simp only [hole_path, hole_z]
      intro z hzmem
      rw [List.mem_map] at hzmem
      obtain ⟨θ, _, rfl⟩ := hzmem
      rfl
    simp only [layerPaths, if_pos h]
    split
    · exact ⟨[], rfl, Or.inl rfl, rfl, rfl, hxs, hys, hzs, hz⟩
    · exact ⟨_, rfl, Or.inr ⟨_, rfl⟩, rfl, rfl, hxs, hys, hzs, hz⟩

/-- Witness for C3 at the default parameters, layer `0`. -/
theorem hole_paths_iff_below_limit_witness :
    (default_params.hole_layer_limit ≤ ((0 : ℕ) : ℤ) →
      layerPaths default_params 0 = [TrayPath.single (wave_wall default_params 0)]) ∧
    (((0 : ℕ) : ℤ) < default_params.hole_layer_limit →
      ∃ rest : List TrayPath,
        layerPaths default_params 0 =
          TrayPath.single (wave_wall default_params 0) ::
            TrayPath.single (hole_path default_params 0) ::
              TrayPath.offsetOf (hole_path default_params 0)
                (-default_params.hole_offset_mm) :: rest ∧
        (rest = [] ∨ ∃ g : PathList, rest = [TrayPath.group g]) ∧
        (hole_path default_params 0).xs =
          (hole_angles default_params).map
            (fun θ => default_params.hole_radius_mm * Real.cos θ) ∧
        (hole_path default_params 0).ys =
          (hole_angles default_params).map
            (fun θ => default_params.hole_radius_mm * Real.sin θ) ∧
        (hole_path default_params 0).xs.length = default_params.hole_sample_count ∧
        (hole_path default_params 0).ys.length = default_params.hole_sample_count ∧
        (hole_path default_params 0).zs.length = default_params.hole_sample_count ∧
        ∀ z ∈ (hole_path default_params 0).zs,
          z = default_params.layer_height_mm * (((0 : ℕ) : ℝ) + 1)) :=
  hole_paths_iff_below_limit default_params 0 (by decide)

/-- C5: on a hole layer whose annulus is at most one pitch wide, the
concentric fill contribution is absent — `build_concentric_fill` returns
`none` (no error: the embedding is total), the layer contributes exactly the
outer wall, hole wall and offset with no fill group, and other layers are
unaffected (the output is the independent per-layer concatenation). -/
theorem concentric_fill_skipped_when_narrow (params : WaveTrayParams)
    (layer_index : ℕ) (hi : layer_index < params.layer_count.toNat)
    (hhole : (layer_index : ℤ) < params.hole_layer_limit)
    (hnarrow : arrayMin (wave_radius params layer_index) -
        params.concentric_clearance_mm -
        (params.hole_radius_mm + params.concentric_clearance_mm) ≤
      params.concentric_pitch_mm) :
    build_concentric_fill params
        (params.hole_radius_mm + params.concentric_clearance_mm)
        (arrayMin (wave_radius params layer_index) - params.concentric_clearance_mm)
        (params.layer_height_mm * ((layer_index : ℝ) + 1)) = none ∧
    layerPaths params layer_index =
      [TrayPath.single (wave_wall params layer_index),
       TrayPath.single (hole_path params layer_index),
       TrayPath.offsetOf (hole_path params layer_index) (-params.hole_offset_mm)] ∧
    build_wave_tray params =
      (List.range params.layer_count.toNat).flatMap (layerPaths params) := by
  have hnone : build_concentric_fill params
      (params.hole_radius_mm + params.concentric_clearance_mm)
      (arrayMin (wave_radius params layer_index) - params.concentric_clearance_mm)
      (params.layer_height_mm * ((layer_index : ℝ) + 1)) = none := by
    simp only [build_concentric_fill, if_pos hnarrow]
  refine ⟨hnone, ?_, rfl⟩
  simp only [layerPaths, if_pos hhole, hnone]

/-- Witness for C5 at `narrow_params`, layer `0` (annulus width `0`). -/
theorem concentric_fill_skipped_when_narrow_witness :
    build_concentric_fill narrow_params
        (narrow_params.hole_radius_mm + narrow_params.concentric_clearance_mm)
        (arrayMin (wave_radius narrow_params 0) - narrow_params.concentric_clearance_mm)
        (narrow_params.layer_height_mm * (((0 : ℕ) : ℝ) + 1)) = none ∧
    layerPaths narrow_params 0 =
      [TrayPath.single (wave_wall narrow_params 0),
       TrayPath.single (hole_path narrow_params 0),
       TrayPath.offsetOf (hole_path narrow_params 0) (-narrow_params.hole_offset_mm)] ∧
    build_wave_tray narrow_params =
      (List.range narrow_params.layer_count.toNat).flatMap (layerPaths narrow_params) :=
  concentric_fill_skipped_when_narrow narrow_params 0 (by decide) (by decide)
    (by rw [arrayMin_wave_radius_narrow]; norm_num [narrow_params])

/-- C4: on a hole layer whose annulus is wider than one pitch, the layer's
fourth appended artifact is a concentric-fill group tagged `z_hop = false`
and `retraction = false`, holding one closed circle of `hole_sample_count`
points per radius `inner + j·pitch` (exactly those radii strictly below the
outer radius, the ring count being the number of such steps), all at
constant `Z = layer_height·(layer_index+1)`. -/
theorem concentric_fill_rings (params : WaveTrayParams) (layer_index : ℕ)
    (hi : layer_index < params.layer_count.toNat)
    (hhole : (layer_index : ℤ) < params.hole_layer_limit)
    (hp : 0 < params.concentric_pitch_mm)
    (hw : params.concentric_pitch_mm <
      arrayMin (wave_radius params layer_index) - params.concentric_clearance_mm -
        (params.hole_radius_mm + params.concentric_clearance_mm)) :
    ∃ (g : PathList) (n : ℕ),
      layerPaths params layer_index =
        [TrayPath.single (wave_wall params layer_index),
         TrayPath.single (hole_path params layer_index),
         TrayPath.offsetOf (hole_path params layer_index) (-params.hole_offset_mm),
         TrayPath.group g] ∧
      g.z_hop = false ∧
      g.retraction = false ∧
      g.paths.length = n ∧
      (∀ j : ℕ, (j < n ↔
        params.hole_radius_mm + params.concentric_clearance_mm +
            (j : ℝ) * params.concentric_pitch_mm <
          arrayMin (wave_radius params layer_index) - params.concentric_clearance_mm)) ∧
      (∀ j : ℕ, j < n →
        g.paths.getD j (Path.mk [] [] []) =
          Path.mk
            ((hole_angles params).map fun θ =>
              (params.hole_radius_mm + params.concentric_clearance_mm +
                (j : ℝ) * params.concentric_pitch_mm) * Real.cos θ)
            ((hole_angles params).map fun θ =>
              (params.hole_radius_mm + params.concentric_clearance_mm +
                (j : ℝ) * params.concentric_pitch_mm) * Real.sin θ)
            ((hole_angles params).map fun _ =>
              params.layer_height_mm * ((layer_index : ℝ) + 1))) ∧
      ∀ p ∈ g.paths,
        p.xs.length = params.hole_sample_count ∧
        p.ys.length = params.hole_sample_count ∧
        p.zs.length = params.hole_sample_count ∧
        ∀ z ∈ p.zs, z = params.layer_height_mm * ((layer_index : ℝ) + 1) := by
  have hlen : (hole_angles params).length = params.hole_sample_count :=
    linspace_length _ _ _
  have hw' : params.concentric_pitch_mm <
      (arrayMin (wave_radius params layer_index) - params.concentric_clearance_mm) -
        (params.hole_radius_mm + params.concentric_clearance_mm) := hw
  have hwide := build_concentric_fill_wide params
    (params.layer_height_mm * ((layer_index : ℝ) + 1)) hp hw'
  refine ⟨PathList.mk ((arange
      (params.hole_radius_mm + params.concentric_clearance_mm)
      (arrayMin (wave_radius params layer_index) - params.concentric_clearance_mm)
      params.concentric_pitch_mm).map fun radius =>
        Path.mk
          ((linspace 0 (2 * Real.pi) params.hole_sample_count).map fun θ =>
            radius * Real.cos θ)
          ((linspace 0 (2 * Real.pi) params.hole_sample_count).map fun θ =>
            radius * Real.sin θ)
          ((linspace 0 (2 * Real.pi) params.hole_sample_count).map fun _ =>
            params.layer_height_mm * ((layer_index : ℝ) + 1))) false false,
    ⌈((arrayMin (wave_radius params layer_index) -
      params.concentric_clearance_mm) -
      (params.hole_radius_mm + params.concentric_clearance_mm)) /
      params.concentric_pitch_mm⌉₊, ?_, rfl, rfl, ?_, ?_, ?_, ?_⟩
  · simp only [layerPaths, if_pos hhole, hwide]
  · rw [List.length_map, arange_length]
  · intro j
    rw [Nat.lt_ceil, lt_div_iff₀ hp]
    constructor
    · intro hj; linarith
    · intro hj; linarith
  · intro j hj
    have hj' : j < ((arange
        (params.hole_radius_mm + params.concentric_clearance_mm)
        (arrayMin (wave_radius params layer_index) - params.concentric_clearance_mm)
        params.concentric_pitch_mm).map fun radius =>
          Path.mk
            ((linspace 0 (2 * Real.pi) params.hole_sample_count).map fun θ =>
              radius * Real.cos θ)
            ((linspace 0 (2 * Real.pi) params.hole_sample_count).map fun θ =>
              radius * Real.sin θ)
            ((linspace 0 (2 * Real.pi) params.hole_sample_count).map fun _ =>
              params.layer_height_mm * ((layer_index : ℝ) + 1))).length := by
      rw [List.length_map, arange_length]
      exact hj
    rw [List.getD_eq_getElem?_getD, List.getElem?_eq_getElem hj']
    simp only [Option.getD_some, List.getElem_map, hole_angles, arange,
      List.getElem_range]
  · intro p hp'
    rw [List.mem_map] at hp'
    obtain ⟨radius, _, rfl⟩ := hp'
    refine ⟨?_, ?_, ?_, ?_⟩
    · rw [List.length_map]; exact hlen
    · rw [List.length_map]; exact hlen
    · rw [List.length_map]; exact hlen
    · intro z hzmem
      rw [List.mem_map] at hzmem
      obtain ⟨θ, _, rfl⟩ := hzmem
      rfl

/-- Witness for C4 at `wide_params`, layer `0` (annulus width `13`, pitch `1`). -/
theorem concentric_fill_rings_witness :
    ∃ (g : PathList) (n : ℕ),
      layerPaths wide_params 0 =
        [TrayPath.single (wave_wall wide_params 0),
         TrayPath.single (hole_path wide_params 0),
         TrayPath.offsetOf (hole_path wide_params 0) (-wide_params.hole_offset_mm),
         TrayPath.group g] ∧
      g.z_hop = false ∧
      g.retraction = false ∧
      g.paths.length = n ∧
      (∀ j : ℕ, (j < n ↔
        wide_params.hole_radius_mm + wide_params.concentric_clearance_mm +
            (j : ℝ) * wide_params.concentric_pitch_mm <
          arrayMin (wave_radius wide_params 0) - wide_params.concentric_clearance_mm)) ∧
      (∀ j : ℕ, j < n →
        g.paths.getD j (Path.mk [] [] []) =
          Path.mk
            ((hole_angles wide_params).map fun θ =>
              (wide_params.hole_radius_mm + wide_params.concentric_clearance_mm +
                (j : ℝ) * wide_params.concentric_pitch_mm) * Real.cos θ)
            ((hole_angles wide_params).map fun θ =>
              (wide_params.hole_radius_mm + wide_params.concentric_clearance_mm +
                (j : ℝ) * wide_params.concentric_pitch_mm) * Real.sin θ)
            ((hole_angles wide_params).map fun _ =>
              wide_params.layer_height_mm * (((0 : ℕ) : ℝ) + 1))) ∧
      ∀ p ∈ g.paths,
        p.xs.length = wide_params.hole_sample_count ∧
        p.ys.length = wide_params.hole_sample_count ∧
        p.zs.length = wide_params.hole_sample_count ∧
        ∀ z ∈ p.zs, z = wide_params.layer_height_mm * (((0 : ℕ) : ℝ) + 1) :=
  concentric_fill_rings wide_params 0 (by decide) (by decide)
    (by norm_num [wide_params, narrow_params])
    (by rw [arrayMin_wave_radius_wide]; norm_num [wide_params, narrow_params])

/-- The claim's closed form for the `k`-th wave angle: `wave_sample_count`
values linearly spaced over `[0, 2π]`. -/
noncomputable def spec_theta (params : WaveTrayParams) (k : ℕ) : ℝ :=
  2 * Real.pi * (k : ℝ) / ((params.wave_sample_count : ℝ) - 1)

/-- The claim's closed form for the `k`-th Z sample of layer `i`:
`wave_sample_count` values linearly spaced over
`[i·layer_height, (i+1)·layer_height]`. -/
noncomputable def spec_layer_z (params : WaveTrayParams) (i k : ℕ) : ℝ :=
  (i : ℝ) * params.layer_height_mm +
    params.layer_height_mm * (k : ℝ) / ((params.wave_sample_count : ℝ) - 1)

/-- The claim's closed form for the `k`-th wave radius of layer `i`:
`base_radius + radial_growth·σ(6·(z/(layer_count·layer_height) − 0.5)) +
wave_amplitude·sin(θ·wave_frequency + π·i)`. -/
noncomputable def spec_wave_r (params : WaveTrayParams) (i k : ℕ) : ℝ :=
  params.base_radius_mm + params.radial_growth_mm *
      sigmoid (6 * (spec_layer_z params i k /
        ((params.layer_count : ℝ) * params.layer_height_mm) - 0.5)) +
    params.wave_amplitude_mm *
      Real.sin (spec_theta params k * params.wave_frequency + Real.pi * (i : ℝ))

/-- Every layer's first appended artifact is its outer wave wall. -/
theorem layerPaths_head (params : WaveTrayParams) (layer_index : ℕ) :
    (layerPaths params layer_index).head? =
      some (TrayPath.single (wave_wall params layer_index)) := by
  simp only [layerPaths]
  split
  · split <;> rfl
  · rfl

theorem layer_z_eq_spec (params : WaveTrayParams) (layer_index : ℕ)
    (hn : 2 ≤ params.wave_sample_count) :
    layer_z params layer_index =
      (List.range params.wave_sample_count).map (spec_layer_z params layer_index) := by
  unfold layer_z linspace spec_layer_z
  apply List.map_congr_left
  intro k hk
  rw [if_neg (by omega)]
  ring

theorem wave_angles_eq_spec (params : WaveTrayParams)
    (hn : 2 ≤ params.wave_sample_count) :
    wave_angles params =
      (List.range params.wave_sample_count).map (spec_theta params) := by
  unfold wave_angles linspace spec_theta
  apply List.map_congr_left
  intro k hk
  rw [if_neg (by omega)]
  ring

theorem wave_radius_eq_spec (params : WaveTrayParams) (layer_index : ℕ)
    (hn : 2 ≤ params.wave_sample_count) :
    wave_radius params layer_index =
      (List.range params.wave_sample_count).map
        (fun k => spec_wave_r params layer_index k) := by
  unfold wave_radius base_radius normalized_height
  rw [layer_z_eq_spec params layer_index hn, wave_angles_eq_spec params hn,
    List.map_map, List.map_map, List.zipWith_map, List.zipWith_same]
  apply List.map_congr_left
  intro k hk
  simp only [Function.comp_apply]
  unfold profile_radius total_height_mm spec_wave_r
  ring

/-- C2: for every layer in range, the outer wall Path appended first for
that layer has exactly `wave_sample_count` points, with `x = r·cos θ`,
`y = r·sin θ`, `z` linearly spaced over the layer's height range (so every
Z value lies within `[i·layer_height, (i+1)·layer_height]`), where the
angles are the run-wide `wave_sample_count`-point spacing of `[0, 2π]` and
`r` is the claimed profile-plus-ripple radius. -/
theorem outer_wall_spec (params : WaveTrayParams) (layer_index : ℕ)
    (hi : layer_index < params.layer_count.toNat)
    (hn : 2 ≤ params.wave_sample_count)
    (hh : 0 ≤ params.layer_height_mm) :
    ∃ p : Path,
      (layerPaths params layer_index).head? = some (TrayPath.single p) ∧
      p = wave_wall params layer_index ∧
      p.xs.length = params.wave_sample_count ∧
      p.ys.length = params.wave_sample_count ∧
      p.zs.length = params.wave_sample_count ∧
      p.xs = (List.range params.wave_sample_count).map (fun k =>
        spec_wave_r params layer_index k * Real.cos (spec_theta params k)) ∧
      p.ys = (List.range params.wave_sample_count).map (fun k =>
        spec_wave_r params layer_index k * Real.sin (spec_theta params k)) ∧
      p.zs = (List.range params.wave_sample_count).map
        (spec_layer_z params layer_index) ∧
      ∀ z ∈ p.zs, (layer_index : ℝ) * params.layer_height_mm ≤ z ∧
        z ≤ ((layer_index : ℝ) + 1) * params.layer_height_mm := by
  have hxs : (wave_wall params layer_index).xs =
      (List.range params.wave_sample_count).map (fun k =>
        spec_wave_r params layer_index k * Real.cos (spec_theta params k)) := by
    show (List.zipWith (fun r θ => r * Real.cos θ) (wave_radius params layer_index)
      (wave_angles params)) = _
    rw [wave_radius_eq_spec params layer_index hn, wave_angles_eq_spec params hn,
      List.zipWith_map, List.zipWith_same]
  have hys : (wave_wall params layer_index).ys =
      (List.range params.wave_sample_count).map (fun k =>
        spec_wave_r params layer_index k * Real.sin (spec_theta params k)) := by
    show (List.zipWith (fun r θ => r * Real.sin θ) (wave_radius params layer_index)
      (wave_angles params)) = _
    rw [wave_radius_eq_spec params layer_index hn, wave_angles_eq_spec params hn,
      List.zipWith_map, List.zipWith_same]
  have hzs : (wave_wall params layer_index).zs =
      (List.range params.wave_sample_count).map (spec_layer_z params layer_index) :=
    layer_z_eq_spec params layer_index hn
  have hab : (layer_index : ℝ) * params.layer_height_mm ≤
      ((layer_index : ℝ) + 1) * params.layer_height_mm := by nlinarith
  refine ⟨wave_wall params layer_index, layerPaths_head params layer_index, rfl,
    ?_, ?_, ?_, hxs, hys, hzs, ?_⟩
  · rw [hxs, List.length_map, List.length_range]
  · rw [hys, List.length_map, List.length_range]
  · rw [hzs, List.length_map, List.length_range]
  · intro z hz
    exact mem_linspace_bounds hab hz

/-- Witness for C2 at the default parameters, layer `0`. -/
theorem outer_wall_spec_witness :
    ∃ p : Path,
      (layerPaths default_params 0).head? = some (TrayPath.single p) ∧
      p = wave_wall default_params 0 ∧
      p.xs.length = default_params.wave_sample_count ∧
      p.ys.length = default_params.wave_sample_count ∧
      p.zs.length = default_params.wave_sample_count ∧
      p.xs = (List.range default_params.wave_sample_count).map (fun k =>
        spec_wave_r default_params 0 k * Real.cos (spec_theta default_params k)) ∧
      p.ys = (List.range default_params.wave_sample_count).map (fun k =>
        spec_wave_r default_params 0 k * Real.sin (spec_theta default_params k)) ∧
      p.zs = (List.range default_params.wave_sample_count).map
        (spec_layer_z default_params 0) ∧
      ∀ z ∈ p.zs, (((0 : ℕ) : ℝ)) * default_params.layer_height_mm ≤ z ∧
        z ≤ (((0 : ℕ) : ℝ) + 1) * default_params.layer_height_mm :=
  outer_wall_spec default_params 0 (by decide) (by decide)
    (by norm_num [default_params])

/-- Modelled from the spec: the argument record of one call to the external
`line_infill` collaborator (spec §6), which clips parallel hatch lines at a
given angle and spacing to the region bounded by the given contours, plus
the two tag booleans set on the resulting region. The collaborator itself is
out of scope, so the call is kept symbolic. -/
structure LineInfillCall where
  contours : List Path
  spacing : ℝ
  angle : ℝ
  z_hop : Bool
  retraction : Bool

/-- Modelled from the spec: the cross-hatch infill variant of the hole-layer
infill step is missing from the sources (only the concentric variant is
present in `wave_tray_ys4i.py`). Per spec §4.2 step 5c, it fills the region
bounded by the outer wall and the hole wall with lines spaced
`infill_distance_mm` apart at angle
`infill_angle_offset_rad + infill_angle_step_rad · layer_index`, and tags
the resulting region `z_hop = true`, `retraction = true`. -/
noncomputable def build_cross_hatch_fill (params : WaveTrayParams)
    (layer_index : ℕ) : LineInfillCall :=
  { contours := [wave_wall params layer_index, hole_path params layer_index],
    spacing := params.infill_distance_mm,
    angle := params.infill_angle_offset_rad +
      params.infill_angle_step_rad * (layer_index : ℝ),
    z_hop := true, retraction := true }

/-- C7: for every hole layer under the cross-hatch infill mode, the infill
region is bounded by the outer and hole walls, spaced `infill_distance_mm`,
at angle `infill_angle_offset_rad + infill_angle_step_rad · layer_index`,
and tagged `z_hop = true`, `retraction = true`. -/
theorem cross_hatch_fill_spec (params : WaveTrayParams) (layer_index : ℕ)
    (hhole : (layer_index : ℤ) < params.hole_layer_limit) :
    (build_cross_hatch_fill params layer_index).contours =
      [wave_wall params layer_index, hole_path params layer_index] ∧
    (build_cross_hatch_fill params layer_index).spacing =
      params.infill_distance_mm ∧
    (build_cross_hatch_fill params layer_index).angle =
      params.infill_angle_offset_rad +
        params.infill_angle_step_rad * (layer_index : ℝ) ∧
    (build_cross_hatch_fill params layer_index).z_hop = true ∧
    (build_cross_hatch_fill params layer_index).retraction = true :=
  ⟨rfl, rfl, rfl, rfl, rfl⟩

/-- Witness for C7 at the default parameters, layers `0` and `1`. -/
theorem cross_hatch_fill_spec_witness :
    ((build_cross_hatch_fill default_params 0).contours =
      [wave_wall default_params 0, hole_path default_params 0] ∧
    (build_cross_hatch_fill default_params 0).spacing =
      default_params.infill_distance_mm ∧
    (build_cross_hatch_fill default_params 0).angle =
      default_params.infill_angle_offset_rad +
        default_params.infill_angle_step_rad * (((0 : ℕ)) : ℝ) ∧
    (build_cross_hatch_fill default_params 0).z_hop = true ∧
    (build_cross_hatch_fill default_params 0).retraction = true) ∧
    ((build_cross_hatch_fill default_params 1).contours =
      [wave_wall default_params 1, hole_path default_params 1] ∧
    (build_cross_hatch_fill default_params 1).spacing =
      default_params.infill_distance_mm ∧
    (build_cross_hatch_fill default_params 1).angle =
      default_params.infill_angle_offset_rad +
        default_params.infill_angle_step_rad * (((1 : ℕ)) : ℝ) ∧
    (build_cross_hatch_fill default_params 1).z_hop = true ∧
    (build_cross_hatch_fill default_params 1).retraction = true) :=
  ⟨cross_hatch_fill_spec default_params 0 (by decide),
   cross_hatch_fill_spec default_params 1 (by decide)⟩

end WaveTray
